import Mathlib

/-!
Verification of the bibi-sync lock-free ring-buffer / pubsub core.

The Rust source (src/ring_buffer/mod.rs, src/ring_buffer/byte_buffer.rs,
src/pubsub/registry.rs, src/ffi/mod.rs, src/uart/mod.rs) is shallowly
embedded below.  The two ring buffers (`RingBuffer<T>` and
`ByteRingBuffer`) share an identical state machine: the same fields, the
same push algorithm, and byte-for-byte the same pop retry loop, differing
only in that the byte flavour guards `push` on the payload size and
returns the epoch from `pop`.  They are therefore embedded as one generic
core (`RingBuffer`), and `ByteRingBuffer` instantiates it at `List Nat`
payloads with the length guard from the source.

Epochs are `u64` counters starting at 0 and incremented by one per push;
the spec notes that wrap-around is not engineered for, so they are
modelled as `Nat`.  `u64::saturating_sub` coincides with truncated `Nat`
subtraction.  `pop`'s retry loop is modelled with explicit fuel
`capacity + 1`; the termination claim (C10) proves that this fuel always
suffices from reachable states, so the fuel default is never taken there.
-/

/-- One slot of the circular array: payload plus the epoch stored with it
(`SlotInner` in the source; a fresh slot carries epoch 0). -/
structure Slot (α : Type) where
  data : α
  epoch : Nat
deriving DecidableEq, Repr

/-- The ring-buffer state: `buffer` is the slot array (`Vec<Slot<T>>`),
`head` the next write index, `tail` the next read index, plus the global
write/read epochs and the fixed capacity. -/
structure RingBuffer (α : Type) where
  buffer : List (Slot α)
  head : Nat
  tail : Nat
  write_epoch : Nat
  read_epoch : Nat
  capacity : Nat
deriving DecidableEq, Repr

namespace RingBuffer

variable {α : Type}

/-- Source `RingBuffer::new(capacity)`: all slot epochs 0, all counters 0.  The
source asserts `capacity > 0`; theorems carry that hypothesis. -/
def new (capacity : Nat) (d : α) : RingBuffer α :=
  { buffer := List.replicate capacity ⟨d, 0⟩
    head := 0
    tail := 0
    write_epoch := 0
    read_epoch := 0
    capacity := capacity }

/-- Source `slot_epoch(index)`: the epoch stored in slot `index` (0 if out of
range, which never happens for well-formed states). -/
def slot_epoch (s : RingBuffer α) (index : Nat) : Nat :=
  ((s.buffer[index]?).map Slot.epoch).getD 0

/-- Source `RingBuffer::push`: bump the write epoch, store the payload and the
new epoch into slot `head`, advance `head` modulo capacity, and return
the new epoch. -/
def push (s : RingBuffer α) (item : α) : Nat × RingBuffer α :=
  let new_epoch := s.write_epoch + 1
  (new_epoch,
    { s with
      buffer := s.buffer.set s.head ⟨item, new_epoch⟩
      write_epoch := new_epoch
      head := (s.head + 1) % s.capacity })

/-- The body of `RingBuffer::pop`'s retry loop, with explicit fuel.
`none` means the fuel ran out (never happens from reachable states with
fuel `capacity + 1`, see the termination theorem).  Each iteration:
return `none` if nothing was ever written; skip an already-consumed slot
(returning `none` when caught up with `head`); skip an overwritten slot,
recording its epoch in `read_epoch`; otherwise read the slot, mark it
consumed and advance `tail`.  The payload is returned together with the
slot epoch (the typed wrapper drops the epoch, the byte wrapper keeps
it, exactly as in the source). -/
def popLoop : Nat → RingBuffer α → Option (Option (α × Nat) × RingBuffer α)
  | 0, _ => none
  | fuel + 1, s =>
    if s.write_epoch = 0 then some (none, s)
    else if slot_epoch s s.tail ≤ s.read_epoch then
      if s.tail = s.head then some (none, s)
      else popLoop fuel { s with tail := (s.tail + 1) % s.capacity }
    else if slot_epoch s s.tail < s.write_epoch - (s.capacity - 1) then
      popLoop fuel
        { s with read_epoch := slot_epoch s s.tail
                 tail := (s.tail + 1) % s.capacity }
    else
      match s.buffer[s.tail]? with
      | some sl =>
        some (some (sl.data, slot_epoch s s.tail),
          { s with read_epoch := slot_epoch s s.tail
                   tail := (s.tail + 1) % s.capacity })
      | none => some (none, s)

/-- Source `RingBuffer::pop`: run the retry loop (fuel `capacity + 1` suffices
on reachable states) and return only the payload, as the typed source
does. -/
def pop (s : RingBuffer α) : Option α × RingBuffer α :=
  match (popLoop (s.capacity + 1) s).getD (none, s) with
  | (r, s') => (r.map Prod.fst, s')

/-- Source `RingBuffer::latest_epoch`: the current write epoch. -/
def latest_epoch (s : RingBuffer α) : Nat :=
  s.write_epoch

/-- Source `RingBuffer::len`: 0 if never written, else the number of unread
items `write_epoch - read_epoch` (saturating), capped at capacity. -/
def len (s : RingBuffer α) : Nat :=
  if s.write_epoch = 0 then 0
  else min (s.write_epoch - s.read_epoch) s.capacity

/-- The state invariant maintained by every sequential operation: the
slot array has length `capacity`; `head` tracks `write_epoch` modulo
capacity; `tail` stays in range; `read_epoch` never passes
`write_epoch`; every written slot carries an epoch at most
`write_epoch`, sits at the position its epoch dictates, and is one of
the last `capacity` epochs; and a fully-consumed buffer has
`tail = head`. -/
structure Inv (s : RingBuffer α) : Prop where
  cap_pos : 0 < s.capacity
  buf_len : s.buffer.length = s.capacity
  head_eq : s.head = s.write_epoch % s.capacity
  tail_lt : s.tail < s.capacity
  r_le_w : s.read_epoch ≤ s.write_epoch
  slot_le : ∀ j : Nat, slot_epoch s j ≤ s.write_epoch
  slot_pos : ∀ j : Nat, slot_epoch s j ≠ 0 → j = (slot_epoch s j - 1) % s.capacity
  slot_ge : ∀ j : Nat, slot_epoch s j ≠ 0 →
    s.write_epoch ≤ slot_epoch s j + (s.capacity - 1)
  drained : s.read_epoch = s.write_epoch → s.tail = s.head

/-- Circular distance from `tail` forward to `head`: the number of
slots the retry loop can still advance over before it must return. -/
def popDist (s : RingBuffer α) : Nat :=
  if s.tail ≤ s.head then s.head - s.tail else s.head + s.capacity - s.tail

end RingBuffer

/-! Byte ring buffer (src/ring_buffer/byte_buffer.rs). -/

def SLOT_SIZE : Nat := 256
def HEADER_SIZE : Nat := 12
def MAX_PAYLOAD_SIZE : Nat := SLOT_SIZE - HEADER_SIZE

/-- Source `ByteRingBuffer` carries variable-length byte payloads in its slots;
a slot stores the payload bytes (the source keeps a fixed 244-byte array
plus a length header and always reads back exactly `data[..len]`, which
is the payload list here) and the epoch.  The state machine is the
generic one. -/
abbrev ByteRingBuffer := RingBuffer (List Nat)

namespace ByteRingBuffer

/-- Source `ByteRingBuffer::new`. -/
def new (capacity : Nat) : ByteRingBuffer :=
  RingBuffer.new capacity []

/-- Source `ByteRingBuffer::push`: `None` if the payload exceeds
`MAX_PAYLOAD_SIZE`, otherwise the generic push, returning `Some` of the
new epoch. -/
def push (s : ByteRingBuffer) (data : List Nat) : Option Nat × ByteRingBuffer :=
  if data.length > MAX_PAYLOAD_SIZE then (none, s)
  else
    match RingBuffer.push s data with
    | (e, s') => (some e, s')

/-- Source `ByteRingBuffer::pop`: the same retry loop, returning the payload
together with its epoch. -/
def pop (s : ByteRingBuffer) : Option (List Nat × Nat) × ByteRingBuffer :=
  (RingBuffer.popLoop (s.capacity + 1) s).getD (none, s)

end ByteRingBuffer

/-! Topic registry (src/pubsub/registry.rs).  A `ByteTopic` is a name
plus a shared (`Arc`) handle onto one `ByteRingBuffer`; sharing is
modelled by keeping every buffer in a `store` heap and letting a handle
be the index of its buffer, so that two handles to the same buffer are
equal indices and operations through either handle act on the same
store entry. -/

structure TopicRegistry where
  store : List ByteRingBuffer
  typed_topics : List String
  byte_topics : List (String × Nat)
deriving DecidableEq

namespace TopicRegistry

/-- Lookup in the byte-topic name map. -/
def findTopic (name : String) : List (String × Nat) → Option Nat
  | [] => none
  | (n, i) :: rest => if n = name then some i else findTopic name rest

/-- Source `TopicRegistry::get_or_create_byte`: return the existing handle for
`name` if present (ignoring `capacity`), else create a buffer of the
given capacity, register it under `name`, and return its handle. -/
def get_or_create_byte (r : TopicRegistry) (name : String) (capacity : Nat) :
    Nat × TopicRegistry :=
  match findTopic name r.byte_topics with
  | some i => (i, r)
  | none =>
    (r.store.length,
      { store := r.store ++ [ByteRingBuffer.new capacity]
        typed_topics := r.typed_topics
        byte_topics := r.byte_topics ++ [(name, r.store.length)] })

/-- Source `TopicRegistry::topic_count`: entries across both namespaces. -/
def topic_count (r : TopicRegistry) : Nat :=
  r.typed_topics.length + r.byte_topics.length

/-- Source `ByteTopic::publish` through a handle: push on the shared buffer. -/
def publish (r : TopicRegistry) (h : Nat) (data : List Nat) :
    Option Nat × TopicRegistry :=
  match r.store[h]? with
  | some buf =>
    match ByteRingBuffer.push buf data with
    | (e, buf') => (e, { r with store := r.store.set h buf' })
  | none => (none, r)

/-- Source `ByteTopic::try_receive` through a handle: pop on the shared
buffer. -/
def try_receive (r : TopicRegistry) (h : Nat) :
    Option (List Nat × Nat) × TopicRegistry :=
  match r.store[h]? with
  | some buf =>
    match ByteRingBuffer.pop buf with
    | (res, buf') => (res, { r with store := r.store.set h buf' })
  | none => (none, r)

end TopicRegistry

/-! C ABI surface (src/ffi/mod.rs).  Pointers are modelled by their only
observable property here, nullness; the output buffer is modelled as the
optional list of bytes that `ptr::copy_nonoverlapping` would have
written. -/

/-- Source `bibi_byte_topic_try_receive`: -1 on any null argument (before
touching the buffer); otherwise run the underlying `pop` and then: -2
if the popped record exceeds `max_len` (the record has already been
consumed at this point, exactly as in the source, where `try_receive()`
is called before the length check), 0 if the buffer yielded nothing,
else 1 with the bytes copied out. -/
def bibi_byte_topic_try_receive (topicNull outDataNull outLenNull : Bool)
    (max_len : Nat) (s : ByteRingBuffer) :
    Int × ByteRingBuffer × Option (List Nat) :=
  if topicNull || outDataNull || outLenNull then (-1, s, none)
  else
    match ByteRingBuffer.pop s with
    | (some (data, _e), s') =>
      if data.length > max_len then (-2, s', none)
      else (1, s', some data)
    | (none, s') => (0, s', none)

/-! UART framing (src/uart/mod.rs). -/

def SYNC_BYTE : Nat := 0xAA
def MAX_MSG_SIZE : Nat := 244

/-- The known frame type bytes. -/
inductive MsgType where
  | Imu | Depth | Thruster | Heartbeat | Command | Ack
deriving DecidableEq, Repr

/-- Source `MsgType::from_u8`. -/
def MsgType.from_u8 (val : Nat) : Option MsgType :=
  match val with
  | 0x01 => some .Imu
  | 0x02 => some .Depth
  | 0x03 => some .Thruster
  | 0x04 => some .Heartbeat
  | 0x10 => some .Command
  | 0x11 => some .Ack
  | _ => none

/-- A decoded frame. -/
structure UartFrame where
  msg_type : MsgType
  payload : List Nat
deriving DecidableEq, Repr

/-- Source `UartBridge::calculate_checksum`: 8-bit wrap-around sum
(`u8::wrapping_add` fold). -/
def calculate_checksum (data : List Nat) : Nat :=
  data.foldl (fun acc b => (acc + b) % 256) 0

/-- Source `UartBridge::try_parse_frame`, acting on the receive buffer
(`rx_buffer`) and returning the parsed frame if any together with the
buffer left behind.  Mirrors the source line by line: length precheck;
find the sync byte and drain everything before it; reread the length;
on oversize length or checksum mismatch drop the leading (sync) byte; on
an unknown type byte return with the buffer untouched (the source's
`?` on `MsgType::from_u8`); on success remove the whole frame. -/
def try_parse_frame (rx_buffer : List Nat) : Option UartFrame × List Nat :=
  if rx_buffer.length < 4 then (none, rx_buffer)
  else
    match rx_buffer.findIdx? (fun b => b = SYNC_BYTE) with
    | none => (none, rx_buffer)
    | some sync_pos =>
      let buf := rx_buffer.drop sync_pos
      if buf.length < 4 then (none, buf)
      else
        let msg_type_byte := buf.getD 1 0
        let len := buf.getD 2 0
        if len > MAX_MSG_SIZE then (none, buf.drop 1)
        else
          let frame_len := 4 + len
          if buf.length < frame_len then (none, buf)
          else
            let checksum := buf.getD (3 + len) 0
            let calculated := calculate_checksum ((buf.drop 1).take (2 + len))
            if checksum ≠ calculated then (none, buf.drop 1)
            else
              match MsgType.from_u8 msg_type_byte with
              | none => (none, buf)
              | some mt => (some ⟨mt, (buf.drop 3).take len⟩, buf.drop frame_len)

/-! Operation traces and reachability.  A buffer state is reachable when
it arises from `new` (with positive capacity) by a sequence of pushes
and pops; the byte flavour additionally covers the guarded byte push. -/

/-- A single sequential operation on a typed buffer. -/
inductive Op (α : Type) where
  | push (x : α)
  | pop
deriving DecidableEq

/-- Run a list of operations, collecting the epochs returned by the
`push` calls in order. -/
def runOps {α : Type} : RingBuffer α → List (Op α) → RingBuffer α × List Nat
  | s, [] => (s, [])
  | s, .push x :: rest =>
    match RingBuffer.push s x with
    | (e, s') =>
      match runOps s' rest with
      | (sf, es) => (sf, e :: es)
  | s, .pop :: rest => runOps (RingBuffer.pop s).2 rest

/-- Number of pushes in a trace. -/
def countPushes {α : Type} : List (Op α) → Nat
  | [] => 0
  | .push _ :: rest => countPushes rest + 1
  | .pop :: rest => countPushes rest

/-- Push the values `v 1, v 2, …, v n` in order onto a fresh buffer of
capacity `C`. -/
def pushN {α : Type} (C : Nat) (d : α) (v : Nat → α) : Nat → RingBuffer α
  | 0 => RingBuffer.new C d
  | n + 1 => (RingBuffer.push (pushN C d v n) (v (n + 1))).2

/-- Drain a buffer by repeated `pop` until it yields nothing (bounded by
fuel, which the theorems instantiate large enough). -/
def drainList {α : Type} : RingBuffer α → Nat → List α
  | _, 0 => []
  | s, fuel + 1 =>
    match RingBuffer.pop s with
    | (none, _) => []
    | (some x, s') => x :: drainList s' fuel

/-- States reachable from a fresh typed buffer by pushes and pops. -/
inductive Reachable {α : Type} : RingBuffer α → Prop where
  | init (c : Nat) (d : α) : 0 < c → Reachable (RingBuffer.new c d)
  | push (s : RingBuffer α) (x : α) : Reachable s → Reachable (RingBuffer.push s x).2
  | pop (s : RingBuffer α) : Reachable s → Reachable (RingBuffer.pop s).2

/-- States reachable from a fresh byte buffer by byte pushes and pops. -/
inductive ByteReachable : ByteRingBuffer → Prop where
  | init (c : Nat) : 0 < c → ByteReachable (ByteRingBuffer.new c)
  | push (s : ByteRingBuffer) (b : List Nat) :
      ByteReachable s → ByteReachable (ByteRingBuffer.push s b).2
  | pop (s : ByteRingBuffer) : ByteReachable s → ByteReachable (ByteRingBuffer.pop s).2

/-- The record that the specification's reading of `pop` would return:
the smallest slot epoch that is unseen (`> read_epoch`) and
non-overwritten (`≥ write_epoch - (capacity - 1)`).  Modelled from the
spec sentence "Returns the oldest unseen, non-overwritten record" to
compare against the implementation's `pop`. -/
def specOldestEpoch {α : Type} (s : RingBuffer α) : Option Nat :=
  ((s.buffer.map Slot.epoch).filter
    (fun e => s.read_epoch < e ∧ s.write_epoch - (s.capacity - 1) ≤ e)).min?

/-! Concrete states used to settle the claims on explicit inputs. -/

/-- Capacity-3 typed buffer after the trace
push 1, pop, push 2, push 3, push 4, push 5. -/
def interleavedState : RingBuffer Nat :=
  (runOps (RingBuffer.new 3 0)
    [.push 1, .pop, .push 2, .push 3, .push 4, .push 5]).1

/-- Capacity-4 byte buffer holding the single record `[1, 2, 3]`. -/
def oneRecordState : ByteRingBuffer :=
  (ByteRingBuffer.push (ByteRingBuffer.new 4) [1, 2, 3]).2

/-- Capacity-4 byte buffer holding the single record `[9]`. -/
def preloadedState : ByteRingBuffer :=
  (ByteRingBuffer.push (ByteRingBuffer.new 4) [9]).2

/-- An otherwise well-formed UART frame whose type byte `0x05` is
unknown: sync `0xAA`, type `0x05`, length `0`, checksum
`0x05 + 0x00 = 0x05`. -/
def unknownTypeFrame : List Nat := [0xAA, 0x05, 0x00, 0x05]

/-- Capacity-2 typed buffer holding the single value 7. -/
def singlePushState : RingBuffer Nat :=
  (RingBuffer.push (RingBuffer.new 2 0) 7).2

/-! Basic facts about the pop retry loop. -/

namespace RingBuffer

variable {α : Type}

/-- Whenever the retry loop finishes, it leaves `buffer`, `head`,
`write_epoch` and `capacity` untouched, never decreases `read_epoch`,
and a returned record is the content of some slot, carrying an epoch
that is unseen (`> read_epoch`) and non-overwritten
(`≥ write_epoch - (capacity - 1)`), recorded into `read_epoch`. -/
theorem popLoop_spec : ∀ (fuel : Nat) (s : RingBuffer α)
    (p : Option (α × Nat)) (s' : RingBuffer α),
    popLoop fuel s = some (p, s') →
    s'.write_epoch = s.write_epoch ∧ s'.capacity = s.capacity ∧
    s'.buffer = s.buffer ∧ s'.head = s.head ∧
    s.read_epoch ≤ s'.read_epoch ∧
    ∀ x e, p = some (x, e) →
      e = s'.read_epoch ∧ s.read_epoch < e ∧
      s.write_epoch - (s.capacity - 1) ≤ e ∧
      ∃ j : Nat, s.buffer[j]? = some (Slot.mk x e) := by
  intro fuel
  induction fuel with
  | zero => intro s p s' h; simp [popLoop] at h
  | succ f ih =>
    intro s p s' h
    rw [popLoop] at h
    by_cases h0 : s.write_epoch = 0
    · simp only [h0, if_pos rfl] at h
      obtain ⟨hp, hs⟩ := Prod.mk.injEq .. ▸ (Option.some.injEq .. ▸ h)
      subst hs
      refine ⟨rfl, rfl, rfl, rfl, le_refl _, ?_⟩
      intro x e hx; simp [← hp] at hx
    · simp only [if_neg h0] at h
      by_cases h1 : slot_epoch s s.tail ≤ s.read_epoch
      · simp only [if_pos h1] at h
        by_cases h2 : s.tail = s.head
        · simp only [if_pos h2] at h
          obtain ⟨hp, hs⟩ := Prod.mk.injEq .. ▸ (Option.some.injEq .. ▸ h)
          subst hs
          refine ⟨rfl, rfl, rfl, rfl, le_refl _, ?_⟩
          intro x e hx; simp [← hp] at hx
        · simp only [if_neg h2] at h
          have := ih _ _ _ h
          exact this
      · simp only [if_neg h1] at h
        by_cases h2 : slot_epoch s s.tail < s.write_epoch - (s.capacity - 1)
        · simp only [if_pos h2] at h
          have hR : s.read_epoch < slot_epoch s s.tail := Nat.lt_of_not_le h1
          obtain ⟨hw, hc, hb, hh, hr, hrec⟩ := ih _ _ _ h
          refine ⟨hw, hc, hb, hh, le_trans (le_of_lt hR) hr, ?_⟩
          intro x e hx
          obtain ⟨he, hlt, hge, j, hj⟩ := hrec x e hx
          exact ⟨he, lt_trans hR hlt, hge, j, hj⟩
        · simp only [if_neg h2] at h
          cases hg : s.buffer[s.tail]? with
          | none =>
            rw [hg] at h
            obtain ⟨hp, hs⟩ := Prod.mk.injEq .. ▸ (Option.some.injEq .. ▸ h)
            subst hs
            refine ⟨rfl, rfl, rfl, rfl, le_refl _, ?_⟩
            intro x e hx; simp [← hp] at hx
          | some sl =>
            rw [hg] at h
            obtain ⟨hp, hs⟩ := Prod.mk.injEq .. ▸ (Option.some.injEq .. ▸ h)
            subst hs
            refine ⟨rfl, rfl, rfl, rfl, le_of_lt (Nat.lt_of_not_le h1), ?_⟩
            intro x e hx
            rw [← hp] at hx
            obtain ⟨hx1, hx2⟩ := Prod.mk.injEq .. ▸ (Option.some.injEq .. ▸ hx)
            refine ⟨hx2.symm, ?_, ?_, s.tail, ?_⟩
            · rw [← hx2]; exact Nat.lt_of_not_le h1
            · rw [← hx2]; exact Nat.le_of_not_lt h2
            · rw [hg, ← hx1, ← hx2]
              have : slot_epoch s s.tail = sl.epoch := by
                simp [slot_epoch, hg]
              rw [this]

@[simp] theorem push_fst (s : RingBuffer α) (x : α) :
    (push s x).1 = s.write_epoch + 1 := rfl

@[simp] theorem push_snd_buffer (s : RingBuffer α) (x : α) :
    (push s x).2.buffer = s.buffer.set s.head ⟨x, s.write_epoch + 1⟩ := rfl

@[simp] theorem push_snd_head (s : RingBuffer α) (x : α) :
    (push s x).2.head = (s.head + 1) % s.capacity := rfl

@[simp] theorem push_snd_tail (s : RingBuffer α) (x : α) :
    (push s x).2.tail = s.tail := rfl

@[simp] theorem push_snd_write_epoch (s : RingBuffer α) (x : α) :
    (push s x).2.write_epoch = s.write_epoch + 1 := rfl

@[simp] theorem push_snd_read_epoch (s : RingBuffer α) (x : α) :
    (push s x).2.read_epoch = s.read_epoch := rfl

@[simp] theorem push_snd_capacity (s : RingBuffer α) (x : α) :
    (push s x).2.capacity = s.capacity := rfl

theorem inv_head_lt {s : RingBuffer α} (hs : Inv s) : s.head < s.capacity := by
  rw [hs.head_eq]; exact Nat.mod_lt _ hs.cap_pos

theorem inv_new (c : Nat) (d : α) (hc : 0 < c) : Inv (new c d) := by
  have hep : ∀ j : Nat, slot_epoch (new c d) j = 0 := by
    intro j
    simp only [slot_epoch, new]
    by_cases hj : j < c
    · rw [List.getElem?_eq_getElem (by simpa using hj)]
      simp [List.getElem_replicate]
    · rw [List.getElem?_eq_none (by simpa using Nat.le_of_not_lt hj)]
      rfl
  exact
    { cap_pos := hc
      buf_len := by simp [new]
      head_eq := by simp [new]
      tail_lt := hc
      r_le_w := le_refl 0
      slot_le := fun j => by rw [hep j]; exact Nat.zero_le _
      slot_pos := fun j h => absurd (hep j) h
      slot_ge := fun j h => absurd (hep j) h
      drained := fun _ => rfl }

/-- How `push` rewrites the slot epochs (the head slot gets the new
epoch, everything else is untouched). -/
theorem slot_epoch_push (s : RingBuffer α) (x : α) (hlt : s.head < s.buffer.length)
    (j : Nat) :
    slot_epoch (push s x).2 j =
      if j = s.head then s.write_epoch + 1 else slot_epoch s j := by
  by_cases hj : j = s.head
  · subst hj
    simp only [slot_epoch, push, if_pos rfl]
    rw [List.getElem?_set_eq_of_lt _ hlt]
    rfl
  · simp only [slot_epoch, push, if_neg hj]
    rw [List.getElem?_set_ne (fun h => hj h.symm)]

theorem inv_push (s : RingBuffer α) (x : α) (hs : Inv s) : Inv (push s x).2 := by
  have hlt : s.head < s.buffer.length := by rw [hs.buf_len]; exact inv_head_lt hs
  have hep := slot_epoch_push s x hlt
  refine
    { cap_pos := hs.cap_pos
      buf_len := by simp [push, hs.buf_len]
      head_eq := ?_
      tail_lt := hs.tail_lt
      r_le_w := le_trans hs.r_le_w (Nat.le_succ _)
      slot_le := ?_
      slot_pos := ?_
      slot_ge := ?_
      drained := ?_ }
  · show (s.head + 1) % s.capacity = (s.write_epoch + 1) % s.capacity
    rw [hs.head_eq, Nat.mod_add_mod]
  · intro j
    rw [hep j, push_snd_write_epoch]
    by_cases hj : j = s.head
    · simp [hj]
    · simp only [if_neg hj]
      exact le_trans (hs.slot_le j) (Nat.le_succ _)
  · intro j hne
    rw [hep j] at hne ⊢
    rw [push_snd_capacity]
    by_cases hj : j = s.head
    · simp only [if_pos hj, Nat.add_sub_cancel]
      rw [hj, hs.head_eq]
    · simp only [if_neg hj] at hne ⊢
      exact hs.slot_pos j hne
  · intro j hne
    rw [hep j] at hne ⊢
    rw [push_snd_capacity, push_snd_write_epoch]
    by_cases hj : j = s.head
    · simp only [if_pos hj]
      exact Nat.le_add_right _ _
    · simp only [if_neg hj] at hne ⊢
      -- an untouched slot cannot hold the minimum live epoch
      -- `write_epoch - (capacity - 1)`, for that slot is exactly `head`
      by_contra hcon
      have hold := hs.slot_ge j hne
      have hcpos := hs.cap_pos
      have heq : slot_epoch s j + (s.capacity - 1) = s.write_epoch := by omega
      have he1 : 1 ≤ slot_epoch s j := Nat.one_le_iff_ne_zero.mpr hne
      have hwc : s.capacity ≤ s.write_epoch := by omega
      have hpos := hs.slot_pos j hne
      have hsub : slot_epoch s j - 1 = s.write_epoch - s.capacity := by omega
      rw [hsub] at hpos
      have hmod : (s.write_epoch - s.capacity) % s.capacity = s.write_epoch % s.capacity := by
        conv_rhs => rw [← Nat.sub_add_cancel hwc]
        rw [Nat.add_mod_right]
      rw [hmod, ← hs.head_eq] at hpos
      exact hj hpos
  · rw [push_snd_read_epoch, push_snd_write_epoch]
    intro hre
    have : s.read_epoch ≤ s.write_epoch := hs.r_le_w
    omega

/-- The pop retry loop preserves the invariant. -/
theorem inv_popLoop : ∀ (fuel : Nat) (s : RingBuffer α)
    (p : Option (α × Nat)) (s' : RingBuffer α),
    Inv s → popLoop fuel s = some (p, s') → Inv s' := by
  intro fuel
  induction fuel with
  | zero => intro s p s' _ h; simp [popLoop] at h
  | succ f ih =>
    intro s p s' hs h
    rw [popLoop] at h
    by_cases h0 : s.write_epoch = 0
    · simp only [if_pos h0] at h
      obtain ⟨-, hseq⟩ := Prod.mk.injEq .. ▸ (Option.some.injEq .. ▸ h)
      exact hseq ▸ hs
    · simp only [if_neg h0] at h
      by_cases h1 : slot_epoch s s.tail ≤ s.read_epoch
      · simp only [if_pos h1] at h
        by_cases h2 : s.tail = s.head
        · simp only [if_pos h2] at h
          obtain ⟨-, hseq⟩ := Prod.mk.injEq .. ▸ (Option.some.injEq .. ▸ h)
          exact hseq ▸ hs
        · simp only [if_neg h2] at h
          refine ih _ _ _ ?_ h
          exact
            { cap_pos := hs.cap_pos
              buf_len := hs.buf_len
              head_eq := hs.head_eq
              tail_lt := Nat.mod_lt _ hs.cap_pos
              r_le_w := hs.r_le_w
              slot_le := hs.slot_le
              slot_pos := hs.slot_pos
              slot_ge := hs.slot_ge
              drained := fun hre => absurd (hs.drained hre) h2 }
      · simp only [if_neg h1] at h
        have hne : slot_epoch s s.tail ≠ 0 := by
          intro hz; exact h1 (hz ▸ Nat.zero_le _)
        by_cases h2 : slot_epoch s s.tail < s.write_epoch - (s.capacity - 1)
        · exfalso
          have := hs.slot_ge s.tail hne
          omega
        · simp only [if_neg h2] at h
          cases hg : s.buffer[s.tail]? with
          | none =>
            rw [hg] at h
            obtain ⟨-, hseq⟩ := Prod.mk.injEq .. ▸ (Option.some.injEq .. ▸ h)
            exact hseq ▸ hs
          | some sl =>
            rw [hg] at h
            obtain ⟨-, hseq⟩ := Prod.mk.injEq .. ▸ (Option.some.injEq .. ▸ h)
            refine hseq ▸
              { cap_pos := hs.cap_pos
                buf_len := hs.buf_len
                head_eq := hs.head_eq
                tail_lt := Nat.mod_lt _ hs.cap_pos
                r_le_w := hs.slot_le s.tail
                slot_le := hs.slot_le
                slot_pos := hs.slot_pos
                slot_ge := hs.slot_ge
                drained := ?_ }
            intro hre
            -- the consumed slot held `write_epoch`, so its position was
            -- `(write_epoch - 1) % capacity` and the new tail is `head`
            have hpos := hs.slot_pos s.tail hne
            show (s.tail + 1) % s.capacity = s.head
            have hre' : slot_epoch s s.tail = s.write_epoch := hre
            rw [hpos, hre', hs.head_eq, Nat.mod_add_mod,
              Nat.sub_add_cancel (Nat.one_le_iff_ne_zero.mpr (hre' ▸ hne))]

/-- Under the invariant the retry loop returns within `popDist + 1`
iterations: the overwritten-skip branch can never fire (all live slot
epochs are within the last `capacity` epochs), so every non-returning
iteration advances `tail` one slot towards `head`, where the loop
necessarily returns. -/
theorem popLoop_isSome : ∀ (fuel : Nat) (s : RingBuffer α), Inv s →
    popDist s + 1 ≤ fuel → (popLoop fuel s).isSome := by
  intro fuel
  induction fuel with
  | zero => intro s _ hf; omega
  | succ f ih =>
    intro s hs hf
    rw [popLoop]
    by_cases h0 : s.write_epoch = 0
    · simp [h0]
    · simp only [if_neg h0]
      by_cases h1 : slot_epoch s s.tail ≤ s.read_epoch
      · simp only [if_pos h1]
        by_cases h2 : s.tail = s.head
        · simp [h2]
        · simp only [if_neg h2]
          refine ih _ ?_ ?_
          · exact
              { cap_pos := hs.cap_pos
                buf_len := hs.buf_len
                head_eq := hs.head_eq
                tail_lt := Nat.mod_lt _ hs.cap_pos
                r_le_w := hs.r_le_w
                slot_le := hs.slot_le
                slot_pos := hs.slot_pos
                slot_ge := hs.slot_ge
                drained := fun hre => absurd (hs.drained hre) h2 }
          · -- the circular distance to `head` shrinks by one
            have ht := hs.tail_lt
            have hh := inv_head_lt hs
            have hc := hs.cap_pos
            show popDist _ + 1 ≤ f
            unfold popDist at hf ⊢
            simp only [show ({ s with tail := (s.tail + 1) % s.capacity } :
              RingBuffer α).head = s.head from rfl,
              show ({ s with tail := (s.tail + 1) % s.capacity } :
              RingBuffer α).tail = (s.tail + 1) % s.capacity from rfl,
              show ({ s with tail := (s.tail + 1) % s.capacity } :
              RingBuffer α).capacity = s.capacity from rfl]
            rcases Nat.lt_or_ge (s.tail + 1) s.capacity with hlt | hge
            · rw [Nat.mod_eq_of_lt hlt]
              split at hf <;> split <;> omega
            · have hteq : s.tail + 1 = s.capacity := by omega
              rw [hteq, Nat.mod_self]
              split at hf <;> split <;> omega
      · simp only [if_neg h1]
        have hne : slot_epoch s s.tail ≠ 0 := by
          intro hz; exact h1 (hz ▸ Nat.zero_le _)
        have hge := hs.slot_ge s.tail hne
        have h2 : ¬ slot_epoch s s.tail < s.write_epoch - (s.capacity - 1) := by
          omega
        simp only [if_neg h2]
        have hlt : s.tail < s.buffer.length := by rw [hs.buf_len]; exact hs.tail_lt
        rw [List.getElem?_eq_getElem hlt]
        rfl

theorem inv_pop (s : RingBuffer α) (hs : Inv s) : Inv (pop s).2 := by
  unfold pop
  cases hpl : popLoop (s.capacity + 1) s with
  | none => simpa [hpl] using hs
  | some r =>
    obtain ⟨p, s'⟩ := r
    simpa [hpl] using inv_popLoop _ _ _ _ hs hpl

end RingBuffer

/-- Every reachable state satisfies the invariant. -/
theorem reachable_inv {α : Type} {s : RingBuffer α} (h : Reachable s) :
    RingBuffer.Inv s := by
  induction h with
  | init c d hc => exact RingBuffer.inv_new c d hc
  | push s x _ ih => exact RingBuffer.inv_push s x ih
  | pop s _ ih => exact RingBuffer.inv_pop s ih

/-- Byte-buffer traces only ever reach generically reachable states: a
guarded byte push is either a no-op or a generic push, and the byte pop
shares the generic pop's successor state. -/
theorem byteReachable_reachable {s : ByteRingBuffer} (h : ByteReachable s) :
    Reachable s := by
  induction h with
  | init c hc => exact Reachable.init c [] hc
  | push s b _ ih =>
    unfold ByteRingBuffer.push
    by_cases hlen : b.length > MAX_PAYLOAD_SIZE
    · simpa [hlen] using ih
    · simpa [hlen] using Reachable.push s b ih
  | pop s _ ih => exact Reachable.pop s ih


/-! Field-preservation facts for the `pop` wrapper. -/

namespace RingBuffer

theorem pop_snd_write_epoch (s : RingBuffer α) :
    (pop s).2.write_epoch = s.write_epoch := by
  unfold pop
  cases hpl : popLoop (s.capacity + 1) s with
  | none => rfl
  | some r =>
    obtain ⟨p, s'⟩ := r
    simpa using (popLoop_spec _ _ _ _ hpl).1

theorem pop_snd_capacity (s : RingBuffer α) :
    (pop s).2.capacity = s.capacity := by
  unfold pop
  cases hpl : popLoop (s.capacity + 1) s with
  | none => rfl
  | some r =>
    obtain ⟨p, s'⟩ := r
    simpa using (popLoop_spec _ _ _ _ hpl).2.1

end RingBuffer

/-! Claim C10. -/

/-- C10: in the sequential model the retry loop of `pop` always
terminates, returning after at most `capacity + 1` iterations from any
reachable buffer state (the loop with fuel `capacity + 1` always
delivers a result rather than running out of fuel). -/
theorem c10_pop_terminates {α : Type} (s : RingBuffer α) (h : Reachable s) :
    (RingBuffer.popLoop (s.capacity + 1) s).isSome = true := by
  have hs := reachable_inv h
  refine RingBuffer.popLoop_isSome _ _ hs ?_
  have ht := hs.tail_lt
  have hh := RingBuffer.inv_head_lt hs
  unfold RingBuffer.popDist
  split <;> omega

/-- Witness for C10 at a concrete reachable state. -/
theorem c10_witness :
    (RingBuffer.popLoop ((RingBuffer.new 3 (0 : Nat)).capacity + 1)
      (RingBuffer.new 3 (0 : Nat))).isSome = true :=
  c10_pop_terminates _ (.init 3 0 (by decide))

/-! Claim C9. -/

/-- C9: in every reachable buffer state, `len()` equals
`min(write_epoch - read_epoch, capacity)` (and 0 when
`write_epoch = 0`), hence `0 ≤ len() ≤ capacity()` always holds. -/
theorem c9_len_formula {α : Type} (s : RingBuffer α) (h : Reachable s) :
    RingBuffer.len s = min (s.write_epoch - s.read_epoch) s.capacity ∧
    (s.write_epoch = 0 → RingBuffer.len s = 0) ∧
    RingBuffer.len s ≤ s.capacity := by
  have hrw := (reachable_inv h).r_le_w
  unfold RingBuffer.len
  by_cases h0 : s.write_epoch = 0
  · have : s.read_epoch = 0 := by omega
    simp [h0, this]
  · simp [h0, Nat.min_le_right]

/-- Witness for C9 at a concrete reachable state. -/
theorem c9_witness :
    RingBuffer.len (RingBuffer.new 4 (0 : Nat)) =
      min ((RingBuffer.new 4 (0 : Nat)).write_epoch -
        (RingBuffer.new 4 (0 : Nat)).read_epoch)
        (RingBuffer.new 4 (0 : Nat)).capacity ∧
    ((RingBuffer.new 4 (0 : Nat)).write_epoch = 0 →
      RingBuffer.len (RingBuffer.new 4 (0 : Nat)) = 0) ∧
    RingBuffer.len (RingBuffer.new 4 (0 : Nat)) ≤
      (RingBuffer.new 4 (0 : Nat)).capacity :=
  c9_len_formula _ (.init 4 0 (by decide))

/-! Claim C1. -/

/-- C1 fails as stated: on the reachable capacity-3 state left by
push 1, pop, push 2, push 3, push 4, push 5, the oldest unseen,
non-overwritten record has epoch 3 (value 3, still sitting in slot 2),
yet `pop()` returns the record with epoch 5 — the first qualifying slot
at or after `tail`, not the one with the smallest epoch. -/
theorem c1_counterexample :
    Reachable interleavedState ∧
    specOldestEpoch interleavedState = some 3 ∧
    interleavedState.buffer[2]? = some (Slot.mk 3 3) ∧
    (RingBuffer.pop interleavedState).1 = some 5 ∧ (5 : Nat) ≠ 3 := by
  refine ⟨?_, by decide, by decide, by decide, by decide⟩
  show Reachable
    (RingBuffer.push ((RingBuffer.push ((RingBuffer.push ((RingBuffer.push
      ((RingBuffer.pop ((RingBuffer.push (RingBuffer.new 3 0) 1).2)).2)
      2).2) 3).2) 4).2) 5).2
  exact .push _ _ (.push _ _ (.push _ _ (.push _ _ (.pop _
    (.push _ _ (.init 3 0 (by decide)))))))

/-- C1 (amended): whenever `pop()` returns a record, that record is the
content of some slot and its epoch (recorded into `read_epoch`) is
unseen (`> read_epoch`) and non-overwritten
(`≥ write_epoch - (capacity - 1)`); it is the first such record at or
after `tail`, not necessarily the one with the globally smallest
epoch. -/
theorem c1_pop_returns_unseen_record {α : Type} (s : RingBuffer α) (x : α)
    (s' : RingBuffer α) (h : RingBuffer.pop s = (some x, s')) :
    s.read_epoch < s'.read_epoch ∧
    s.write_epoch - (s.capacity - 1) ≤ s'.read_epoch ∧
    ∃ j : Nat, s.buffer[j]? = some (Slot.mk x s'.read_epoch) := by
  unfold RingBuffer.pop at h
  cases hpl : RingBuffer.popLoop (s.capacity + 1) s with
  | none => rw [hpl] at h; simp at h
  | some r =>
    obtain ⟨p, s₁⟩ := r
    rw [hpl] at h
    simp only [Option.getD_some] at h
    cases p with
    | none => simp at h
    | some xe =>
      obtain ⟨x', e⟩ := xe
      obtain ⟨h1, h2⟩ := Prod.mk.injEq .. ▸ h
      simp only [Option.map_some'] at h1
      obtain hx := Option.some.injEq .. ▸ h1
      obtain ⟨-, -, -, -, -, hrec⟩ := RingBuffer.popLoop_spec _ _ _ _ hpl
      obtain ⟨he, hlt, hge, j, hj⟩ := hrec x' e rfl
      subst h2
      rw [← he, ← hx]
      exact ⟨hlt, hge, j, hj⟩

/-- Witness for the amended C1 at a concrete input. -/
theorem c1_witness :
    singlePushState.read_epoch < (RingBuffer.pop singlePushState).2.read_epoch ∧
    singlePushState.write_epoch - (singlePushState.capacity - 1) ≤
      (RingBuffer.pop singlePushState).2.read_epoch ∧
    ∃ j : Nat, singlePushState.buffer[j]? =
      some (Slot.mk 7 (RingBuffer.pop singlePushState).2.read_epoch) :=
  c1_pop_returns_unseen_record singlePushState 7
    (RingBuffer.pop singlePushState).2 (by decide)

/-! Claim C3. -/

/-- C3 fails as stated: on a buffer holding the single record
`[1, 2, 3]`, `try_receive` with `max_len = 2` returns -2 but mutates
the buffer (the record is consumed and dropped by the underlying `pop`
before the length check), so the undelivered record is gone: a retry
with a large `max_len` returns 0. -/
theorem c3_counterexample :
    (bibi_byte_topic_try_receive false false false 2 oneRecordState).1 = -2 ∧
    (bibi_byte_topic_try_receive false false false 2 oneRecordState).2.1 ≠
      oneRecordState ∧
    (bibi_byte_topic_try_receive false false false 100
      (bibi_byte_topic_try_receive false false false 2 oneRecordState).2.1).1
      = 0 := by
  refine ⟨by decide, by decide, by decide⟩

/-- C3 (amended): null topic/out_data/out_len yields -1 with the buffer
untouched; with valid pointers, an available record longer than
`max_len` yields -2 with the record already consumed and discarded (the
buffer state is the post-`pop` state), no record yields 0, and
otherwise the record is copied out with result 1.  Only the -1 path
leaves the buffer unmutated. -/
theorem c3_try_receive_codes (topicNull outDataNull outLenNull : Bool)
    (max_len : Nat) (s : ByteRingBuffer) :
    ((topicNull || outDataNull || outLenNull) = true →
      bibi_byte_topic_try_receive topicNull outDataNull outLenNull max_len s =
        (-1, s, none)) ∧
    ((topicNull || outDataNull || outLenNull) = false →
      (∀ d e s', ByteRingBuffer.pop s = (some (d, e), s') →
        (max_len < d.length →
          bibi_byte_topic_try_receive topicNull outDataNull outLenNull max_len s =
            (-2, s', none)) ∧
        (d.length ≤ max_len →
          bibi_byte_topic_try_receive topicNull outDataNull outLenNull max_len s =
            (1, s', some d))) ∧
      (∀ s', ByteRingBuffer.pop s = (none, s') →
        bibi_byte_topic_try_receive topicNull outDataNull outLenNull max_len s =
          (0, s', none))) := by
  unfold bibi_byte_topic_try_receive
  constructor
  · intro hnull; rw [if_pos hnull]
  · intro hnull
    rw [if_neg (by simp [hnull])]
    constructor
    · intro d e s' hp
      rw [hp]
      constructor
      · intro hlen
        simp [hlen]
      · intro hlen
        simp [show ¬ d.length > max_len by omega]
    · intro s' hp
      rw [hp]

/-- Witness for the amended C3 at a concrete input (null topic pointer
on a fresh buffer). -/
theorem c3_witness :
    bibi_byte_topic_try_receive true false false 5 (ByteRingBuffer.new 2) =
      (-1, ByteRingBuffer.new 2, none) :=
  (c3_try_receive_codes true false false 5 (ByteRingBuffer.new 2)).1 rfl

/-! Claim C4. -/

/-- C4 names a code bug: on a complete, checksum-valid frame whose type
byte `0x05` is unknown, `try_parse_frame` returns no frame but leaves
the receive buffer exactly as it was, instead of discarding the
malformed frame by advancing past its leading byte — the unknown-type
frame is never consumed, so parsing of later frames cannot proceed.
(The other malformed cases — bad checksum, oversize length — do advance
past the leading byte, and well-formed known-type frames are
accepted.) -/
theorem c4_unknown_type_not_discarded :
    try_parse_frame unknownTypeFrame = (none, unknownTypeFrame) ∧
    MsgType.from_u8 0x05 = none ∧
    calculate_checksum [0x05, 0x00] = 0x05 ∧
    (try_parse_frame unknownTypeFrame).2 ≠ unknownTypeFrame.drop 1 := by
  refine ⟨by decide, by decide, by decide, by decide⟩

/-! Claim C8. -/

/-- C8: a byte push returns `None` exactly when the payload exceeds
`MAX_PAYLOAD_SIZE = 244`; at the boundary, a 244-byte payload is
accepted (returning the next epoch) and a 245-byte payload is
rejected. -/
theorem c8_push_size_guard :
    (∀ (s : ByteRingBuffer) (b : List Nat),
      (ByteRingBuffer.push s b).1 = none ↔ MAX_PAYLOAD_SIZE < b.length) ∧
    (∀ (s : ByteRingBuffer) (b : List Nat), b.length = MAX_PAYLOAD_SIZE →
      (ByteRingBuffer.push s b).1 = some (s.write_epoch + 1)) ∧
    (∀ (s : ByteRingBuffer) (b : List Nat), b.length = MAX_PAYLOAD_SIZE + 1 →
      (ByteRingBuffer.push s b).1 = none) := by
  refine ⟨?_, ?_, ?_⟩ <;> intro s b <;> unfold ByteRingBuffer.push
  · by_cases h : b.length > MAX_PAYLOAD_SIZE
    · simp [h]
    · simp [h]
  · intro h
    have hne : ¬ b.length > MAX_PAYLOAD_SIZE := by omega
    simp only [if_neg hne]
    rfl
  · intro h
    have hpos : b.length > MAX_PAYLOAD_SIZE := by omega
    simp only [if_pos hpos]

/-- Witness for C8 at the concrete boundary payloads. -/
theorem c8_witness :
    ((ByteRingBuffer.push (ByteRingBuffer.new 4) (List.replicate 244 0)).1 = none ↔
      MAX_PAYLOAD_SIZE < (List.replicate 244 (0 : Nat)).length) ∧
    (ByteRingBuffer.push (ByteRingBuffer.new 4) (List.replicate 244 0)).1 = some 1 ∧
    (ByteRingBuffer.push (ByteRingBuffer.new 4) (List.replicate 245 0)).1 = none := by
  refine ⟨c8_push_size_guard.1 _ _, ?_, ?_⟩
  · exact c8_push_size_guard.2.1 (ByteRingBuffer.new 4) _ (by rw [List.length_replicate]; rfl)
  · exact c8_push_size_guard.2.2 (ByteRingBuffer.new 4) _ (by rw [List.length_replicate]; rfl)

/-! Claim C6. -/

/-- When a byte buffer satisfying the invariant has been fully consumed
(`read_epoch = write_epoch`), `tail` points at `head`, so a push lands
exactly where the next pop looks: the pushed record round-trips. -/
theorem byte_push_pop_of_drained (s : ByteRingBuffer) (hs : RingBuffer.Inv s)
    (hre : s.read_epoch = s.write_epoch) (b : List Nat)
    (hb : b.length ≤ MAX_PAYLOAD_SIZE) :
    ByteRingBuffer.push s b = (some (s.write_epoch + 1), (RingBuffer.push s b).2) ∧
    (ByteRingBuffer.pop (ByteRingBuffer.push s b).2).1 =
      some (b, s.write_epoch + 1) := by
  have hguard : ¬ b.length > MAX_PAYLOAD_SIZE := by omega
  have hpush : ByteRingBuffer.push s b =
      (some (s.write_epoch + 1), (RingBuffer.push s b).2) := by
    unfold ByteRingBuffer.push
    rw [if_neg hguard]
    rfl
  refine ⟨hpush, ?_⟩
  rw [hpush]
  have hth : s.tail = s.head := hs.drained hre
  have hhl : s.head < s.buffer.length := by
    rw [hs.buf_len]; exact RingBuffer.inv_head_lt hs
  have hget : (RingBuffer.push s b).2.buffer[s.tail]? =
      some (Slot.mk b (s.write_epoch + 1)) := by
    rw [RingBuffer.push_snd_buffer, hth]
    exact List.getElem?_set_eq_of_lt _ hhl
  have hse : RingBuffer.slot_epoch (RingBuffer.push s b).2 s.tail =
      s.write_epoch + 1 := by
    unfold RingBuffer.slot_epoch
    rw [hget]
    rfl
  show ((RingBuffer.popLoop ((RingBuffer.push s b).2.capacity + 1)
    (RingBuffer.push s b).2).getD (none, (RingBuffer.push s b).2)).1 =
    some (b, s.write_epoch + 1)
  rw [RingBuffer.popLoop]
  simp only [RingBuffer.push_snd_write_epoch, RingBuffer.push_snd_read_epoch,
    RingBuffer.push_snd_tail, RingBuffer.push_snd_capacity]
  rw [hse]
  rw [if_neg (Nat.succ_ne_zero s.write_epoch)]
  rw [if_neg (show ¬ s.write_epoch + 1 ≤ s.read_epoch from by omega)]
  rw [if_neg (show ¬ s.write_epoch + 1 < s.write_epoch + 1 - (s.capacity - 1)
    from Nat.not_lt.2 (Nat.sub_le _ _))]
  rw [hget]
  rfl

/-- C6 fails as stated: on the reachable byte buffer already holding the
record `[9]`, push of `[7]` followed by a pop returns the older record
`([9], 1)`, not the freshly pushed `([7], 2)` — push/pop round-tripping
needs the buffer to be empty at the time of the push. -/
theorem c6_counterexample :
    ByteReachable preloadedState ∧
    ([7] : List Nat).length ≤ MAX_PAYLOAD_SIZE ∧
    (ByteRingBuffer.push preloadedState [7]).1 = some 2 ∧
    (ByteRingBuffer.pop (ByteRingBuffer.push preloadedState [7]).2).1 =
      some ([9], 1) ∧
    some (([9] : List Nat), (1 : Nat)) ≠ some ([7], 2) := by
  refine ⟨?_, by decide, by decide, by decide, by decide⟩
  exact .push _ _ (.init 4 (by decide))

/-- C6 (amended): for every reachable byte-buffer state that is empty
(`len() = 0`) and every payload within `MAX_PAYLOAD_SIZE`, `push(b)`
immediately followed by `pop()` returns `Some (b, e)` where `e` is the
epoch returned by that push, equal to `latest_epoch()` right after the
push. -/
theorem c6_push_pop_roundtrip (s : ByteRingBuffer) (b : List Nat)
    (hr : ByteReachable s) (hlen : RingBuffer.len s = 0)
    (hb : b.length ≤ MAX_PAYLOAD_SIZE) :
    ∃ e : Nat,
      (ByteRingBuffer.push s b).1 = some e ∧
      RingBuffer.latest_epoch (ByteRingBuffer.push s b).2 = e ∧
      (ByteRingBuffer.pop (ByteRingBuffer.push s b).2).1 = some (b, e) := by
  have hs := reachable_inv (byteReachable_reachable hr)
  have hre : s.read_epoch = s.write_epoch := by
    have hrw := hs.r_le_w
    have hc := hs.cap_pos
    unfold RingBuffer.len at hlen
    by_cases h0 : s.write_epoch = 0
    · omega
    · rw [if_neg h0] at hlen
      omega
  obtain ⟨hpush, hpop⟩ := byte_push_pop_of_drained s hs hre b hb
  refine ⟨s.write_epoch + 1, ?_, ?_, hpop⟩
  · rw [hpush]
  · rw [hpush]; rfl

/-- Witness for the amended C6 at a concrete input. -/
theorem c6_witness :
    ∃ e : Nat,
      (ByteRingBuffer.push (ByteRingBuffer.new 4) [1, 2]).1 = some e ∧
      RingBuffer.latest_epoch (ByteRingBuffer.push (ByteRingBuffer.new 4) [1, 2]).2 = e ∧
      (ByteRingBuffer.pop (ByteRingBuffer.push (ByteRingBuffer.new 4) [1, 2]).2).1 =
        some ([1, 2], e) :=
  c6_push_pop_roundtrip (ByteRingBuffer.new 4) [1, 2]
    (.init 4 (by decide)) (by decide) (by decide)

/-! Claim C5. -/

/-- If a name is absent from the byte-topic map, it is found at a fresh
entry appended for it. -/
theorem findTopic_append (name : String) (l : List (String × Nat)) (k : Nat)
    (h : TopicRegistry.findTopic name l = none) :
    TopicRegistry.findTopic name (l ++ [(name, k)]) = some k := by
  induction l with
  | nil => simp [TopicRegistry.findTopic]
  | cons p rest ih =>
    obtain ⟨n, i⟩ := p
    rw [List.cons_append]
    simp only [TopicRegistry.findTopic] at h ⊢
    by_cases hn : n = name
    · rw [if_pos hn] at h; exact absurd h (by simp)
    · rw [if_neg hn] at h ⊢
      exact ih h

/-- C5: `get_or_create_byte` is idempotent — a second lookup of the same
name returns the same handle and leaves the registry unchanged, no
matter the capacity argument; a lookup of an existing name returns its
handle unchanged; a first lookup registers exactly one new entry, whose
buffer has the first call's capacity, and a value pushed through the
first handle is received through the second. -/
theorem c5_registry_idempotent (r : TopicRegistry) (name : String)
    (c1 c2 : Nat) (b : List Nat) (hc1 : 0 < c1)
    (hb : b.length ≤ MAX_PAYLOAD_SIZE) :
    (TopicRegistry.get_or_create_byte
      (TopicRegistry.get_or_create_byte r name c1).2 name c2).1 =
      (TopicRegistry.get_or_create_byte r name c1).1 ∧
    (TopicRegistry.get_or_create_byte
      (TopicRegistry.get_or_create_byte r name c1).2 name c2).2 =
      (TopicRegistry.get_or_create_byte r name c1).2 ∧
    (∀ i, TopicRegistry.findTopic name r.byte_topics = some i →
      (TopicRegistry.get_or_create_byte r name c1).1 = i ∧
      (TopicRegistry.get_or_create_byte r name c1).2 = r) ∧
    (TopicRegistry.findTopic name r.byte_topics = none →
      TopicRegistry.topic_count (TopicRegistry.get_or_create_byte r name c1).2 =
        TopicRegistry.topic_count r + 1 ∧
      ((TopicRegistry.get_or_create_byte r name c1).2.store[
        (TopicRegistry.get_or_create_byte r name c1).1]?) =
        some (ByteRingBuffer.new c1) ∧
      (TopicRegistry.try_receive
        (TopicRegistry.publish (TopicRegistry.get_or_create_byte r name c1).2
          (TopicRegistry.get_or_create_byte r name c1).1 b).2
        (TopicRegistry.get_or_create_byte
          (TopicRegistry.get_or_create_byte r name c1).2 name c2).1).1 =
        some (b, 1)) := by
  by_cases hfind : ∃ i, TopicRegistry.findTopic name r.byte_topics = some i
  · obtain ⟨i, hi⟩ := hfind
    have h1 : TopicRegistry.get_or_create_byte r name c1 = (i, r) := by
      unfold TopicRegistry.get_or_create_byte
      rw [hi]
    have h2 : TopicRegistry.get_or_create_byte r name c2 = (i, r) := by
      unfold TopicRegistry.get_or_create_byte
      rw [hi]
    rw [h1]
    refine ⟨by rw [h2], by rw [h2], ?_, ?_⟩
    · intro i' hi'
      rw [hi] at hi'
      obtain rfl := Option.some.injEq .. ▸ hi'
      exact ⟨rfl, rfl⟩
    · intro hnone
      rw [hi] at hnone
      exact absurd hnone (by simp)
  · have hnone : TopicRegistry.findTopic name r.byte_topics = none := by
      cases h : TopicRegistry.findTopic name r.byte_topics with
      | none => rfl
      | some i => exact absurd ⟨i, h⟩ hfind
    have h1 : TopicRegistry.get_or_create_byte r name c1 =
        (r.store.length,
          { store := r.store ++ [ByteRingBuffer.new c1]
            typed_topics := r.typed_topics
            byte_topics := r.byte_topics ++ [(name, r.store.length)] }) := by
      unfold TopicRegistry.get_or_create_byte
      rw [hnone]
    have hfind2 : TopicRegistry.findTopic name
        (r.byte_topics ++ [(name, r.store.length)]) = some r.store.length :=
      findTopic_append name r.byte_topics r.store.length hnone
    have h2 : TopicRegistry.get_or_create_byte
        (TopicRegistry.get_or_create_byte r name c1).2 name c2 =
        (r.store.length, (TopicRegistry.get_or_create_byte r name c1).2) := by
      rw [h1]
      unfold TopicRegistry.get_or_create_byte
      rw [hfind2]
    refine ⟨by rw [h2, h1], by rw [h2], ?_, ?_⟩
    · intro i hi
      rw [hnone] at hi
      exact absurd hi (by simp)
    · intro _
      refine ⟨?_, ?_, ?_⟩
      · rw [h1]
        unfold TopicRegistry.topic_count
        simp
        omega
      · rw [h1]
        exact List.getElem?_concat_length _ _
      · -- push through the first handle, receive through the second
        obtain ⟨hpush, hpop⟩ := byte_push_pop_of_drained (ByteRingBuffer.new c1)
          (RingBuffer.inv_new c1 [] hc1) rfl b hb
        rw [h2, h1]
        rw [hpush] at hpop
        simp only [TopicRegistry.publish, TopicRegistry.try_receive,
          List.getElem?_concat_length, hpush,
          List.getElem?_set_eq_of_lt _ (by
            rw [List.length_append]; simp : r.store.length <
              (r.store ++ [ByteRingBuffer.new c1]).length)]
        rw [show ByteRingBuffer.pop (RingBuffer.push (ByteRingBuffer.new c1) b).2 =
          ((ByteRingBuffer.pop (RingBuffer.push (ByteRingBuffer.new c1) b).2).1,
           (ByteRingBuffer.pop (RingBuffer.push (ByteRingBuffer.new c1) b).2).2)
          from rfl]
        rw [hpop]
        rfl

/-- Witness for C5 at the concrete registry scenario from the spec. -/
theorem c5_witness :
    (TopicRegistry.get_or_create_byte
      (TopicRegistry.get_or_create_byte ⟨[], [], []⟩ "/cam/0" 32).2 "/cam/0" 8).1 =
      (TopicRegistry.get_or_create_byte ⟨[], [], []⟩ "/cam/0" 32).1 ∧
    (TopicRegistry.get_or_create_byte
      (TopicRegistry.get_or_create_byte ⟨[], [], []⟩ "/cam/0" 32).2 "/cam/0" 8).2 =
      (TopicRegistry.get_or_create_byte ⟨[], [], []⟩ "/cam/0" 32).2 ∧
    (∀ i, TopicRegistry.findTopic "/cam/0" (⟨[], [], []⟩ : TopicRegistry).byte_topics = some i →
      (TopicRegistry.get_or_create_byte ⟨[], [], []⟩ "/cam/0" 32).1 = i ∧
      (TopicRegistry.get_or_create_byte ⟨[], [], []⟩ "/cam/0" 32).2 = ⟨[], [], []⟩) ∧
    (TopicRegistry.findTopic "/cam/0" (⟨[], [], []⟩ : TopicRegistry).byte_topics = none →
      TopicRegistry.topic_count
        (TopicRegistry.get_or_create_byte ⟨[], [], []⟩ "/cam/0" 32).2 =
        TopicRegistry.topic_count (⟨[], [], []⟩ : TopicRegistry) + 1 ∧
      ((TopicRegistry.get_or_create_byte ⟨[], [], []⟩ "/cam/0" 32).2.store[
        (TopicRegistry.get_or_create_byte ⟨[], [], []⟩ "/cam/0" 32).1]?) =
        some (ByteRingBuffer.new 32) ∧
      (TopicRegistry.try_receive
        (TopicRegistry.publish (TopicRegistry.get_or_create_byte ⟨[], [], []⟩ "/cam/0" 32).2
          (TopicRegistry.get_or_create_byte ⟨[], [], []⟩ "/cam/0" 32).1 [0xAB, 0xCD]).2
        (TopicRegistry.get_or_create_byte
          (TopicRegistry.get_or_create_byte ⟨[], [], []⟩ "/cam/0" 32).2 "/cam/0" 8).1).1 =
        some ([0xAB, 0xCD], 1)) :=
  c5_registry_idempotent ⟨[], [], []⟩ "/cam/0" 32 8 [0xAB, 0xCD]
    (by decide) (by decide)

/-! Claim C7. -/

/-- Along any operation trace, the epochs returned by the pushes count
up from one past the starting write epoch, and the final write epoch
has advanced by exactly the number of pushes (`pop` never touches
it). -/
theorem runOps_spec {α : Type} : ∀ (ops : List (Op α)) (s : RingBuffer α),
    (runOps s ops).2 = List.range' (s.write_epoch + 1) (countPushes ops) ∧
    (runOps s ops).1.write_epoch = s.write_epoch + countPushes ops := by
  intro ops
  induction ops with
  | nil => intro s; exact ⟨rfl, rfl⟩
  | cons op rest ih =>
    intro s
    cases op with
    | push x =>
      obtain ⟨h2, h1⟩ := ih (RingBuffer.push s x).2
      refine ⟨?_, ?_⟩
      · show (RingBuffer.push s x).1 :: (runOps (RingBuffer.push s x).2 rest).2 =
          List.range' (s.write_epoch + 1) (countPushes rest + 1)
        rw [h2, RingBuffer.push_fst, RingBuffer.push_snd_write_epoch,
          List.range'_succ]
      · show (runOps (RingBuffer.push s x).2 rest).1.write_epoch =
          s.write_epoch + (countPushes rest + 1)
        rw [h1, RingBuffer.push_snd_write_epoch]
        omega
    | pop =>
      obtain ⟨h2, h1⟩ := ih (RingBuffer.pop s).2
      refine ⟨?_, ?_⟩
      · show (runOps (RingBuffer.pop s).2 rest).2 =
          List.range' (s.write_epoch + 1) (countPushes rest)
        rw [h2, RingBuffer.pop_snd_write_epoch]
      · show (runOps (RingBuffer.pop s).2 rest).1.write_epoch =
          s.write_epoch + countPushes rest
        rw [h1, RingBuffer.pop_snd_write_epoch]

/-- C7: from a fresh buffer, the epochs returned by successive pushes
are exactly 1, 2, 3, … with no gaps (whatever pops are interleaved),
and once at least one push has happened, `latest_epoch()` is positive
and equals the epoch returned by the most recent push. -/
theorem c7_push_epochs {α : Type} (C : Nat) (d : α) (ops : List (Op α))
    (hC : 0 < C) :
    (runOps (RingBuffer.new C d) ops).2 = List.range' 1 (countPushes ops) ∧
    (0 < countPushes ops →
      0 < RingBuffer.latest_epoch (runOps (RingBuffer.new C d) ops).1 ∧
      (runOps (RingBuffer.new C d) ops).2.getLast? =
        some (RingBuffer.latest_epoch (runOps (RingBuffer.new C d) ops).1)) := by
  obtain ⟨h2, h1⟩ := runOps_spec ops (RingBuffer.new C d)
  have hw : (RingBuffer.new C d).write_epoch = 0 := rfl
  rw [hw] at h2 h1
  constructor
  · simpa using h2
  · intro hk
    unfold RingBuffer.latest_epoch
    rw [h1]
    refine ⟨by omega, ?_⟩
    rw [h2]
    cases hcp : countPushes ops with
    | zero => omega
    | succ m =>
      rw [List.range'_1_concat, List.getLast?_concat]
      congr 1
      omega

/-- Witness for C7 at a concrete trace. -/
theorem c7_witness :
    (runOps (RingBuffer.new 5 (0 : Nat)) [.push 10, .pop, .push 20]).2 =
      List.range' 1 (countPushes [Op.push 10, Op.pop, Op.push 20]) ∧
    (0 < countPushes [Op.push 10, Op.pop, Op.push 20] →
      0 < RingBuffer.latest_epoch
        (runOps (RingBuffer.new 5 (0 : Nat)) [.push 10, .pop, .push 20]).1 ∧
      (runOps (RingBuffer.new 5 (0 : Nat)) [.push 10, .pop, .push 20]).2.getLast? =
        some (RingBuffer.latest_epoch
          (runOps (RingBuffer.new 5 (0 : Nat)) [.push 10, .pop, .push 20]).1)) :=
  c7_push_epochs 5 0 [.push 10, .pop, .push 20] (by decide)

/-! Claim C2.  The state after `n` pushes onto a fresh buffer of
capacity `C` is characterised exactly: slot `j` holds the value and
epoch of the latest push `e ≤ n` with `(e - 1) % C = j`, which is
`n - ((n + C - 1 - j) % C)` (0 meaning "never written"). -/

/-- The head slot receives epoch `n + 1` on the `(n+1)`-st push. -/
theorem slotE_head {C : Nat} (hC : 0 < C) (n : Nat) :
    (n + 1) - ((n + 1 + C - 1 - n % C) % C) = n + 1 := by
  have hle := Nat.mod_le n C
  have h1 : n + 1 + C - 1 - n % C = (n - n % C) + C := by omega
  have hdm := Nat.div_add_mod n C
  have h2 : n - n % C = C * (n / C) := by omega
  rw [h1, Nat.add_mod_right, h2, Nat.mul_mod_right]
  omega

/-- Every other slot keeps its epoch across the `(n+1)`-st push. -/
theorem slotE_other {C : Nat} (hC : 0 < C) {n j : Nat} (hj : j < C)
    (hne : j ≠ n % C) :
    (n + 1) - ((n + 1 + C - 1 - j) % C) = n - ((n + C - 1 - j) % C) := by
  have hrlt : n % C < C := Nat.mod_lt _ hC
  have ha : n + C - 1 - j = n + (C - 1 - j) := by omega
  have hb : n + 1 + C - 1 - j = (n + (C - 1 - j)) + 1 := by omega
  have hmod : (n + (C - 1 - j)) % C = (n % C + (C - 1 - j)) % C := by
    rw [Nat.mod_add_mod]
  have hne' : (n + (C - 1 - j)) % C ≠ C - 1 := by
    rw [hmod]
    rcases Nat.lt_or_ge (n % C + (C - 1 - j)) C with hlt | hge
    · rw [Nat.mod_eq_of_lt hlt]
      omega
    · have h1 : (n % C + (C - 1 - j)) % C = (n % C + (C - 1 - j)) - C := by
        rw [Nat.mod_eq_sub_mod hge]
        exact Nat.mod_eq_of_lt (by omega)
      rw [h1]
      omega
  have hlt' : (n + (C - 1 - j)) % C < C := Nat.mod_lt _ hC
  have hsucc : ((n + (C - 1 - j)) + 1) % C = (n + (C - 1 - j)) % C + 1 := by
    conv_lhs => rw [← Nat.mod_add_mod]
    exact Nat.mod_eq_of_lt (by omega)
  rw [ha, hb, hsucc]
  omega

/-- Full characterisation of the state reached by `pushN`. -/
theorem pushN_spec {α : Type} (C : Nat) (d : α) (v : Nat → α) (hC : 0 < C) :
    ∀ n : Nat,
      (pushN C d v n).write_epoch = n ∧
      (pushN C d v n).read_epoch = 0 ∧
      (pushN C d v n).tail = 0 ∧
      (pushN C d v n).head = n % C ∧
      (pushN C d v n).capacity = C ∧
      (pushN C d v n).buffer.length = C ∧
      ∀ j : Nat, j < C →
        (pushN C d v n).buffer[j]? =
          some (if n - ((n + C - 1 - j) % C) = 0 then Slot.mk d 0
                else Slot.mk (v (n - ((n + C - 1 - j) % C)))
                  (n - ((n + C - 1 - j) % C))) := by
  intro n
  induction n with
  | zero =>
    refine ⟨rfl, rfl, rfl, (Nat.zero_mod C).symm, rfl, by simp [pushN, RingBuffer.new], ?_⟩
    intro j hj
    show (List.replicate C (Slot.mk d 0))[j]? = _
    rw [List.getElem?_replicate, if_pos hj]
    have h0 : (0 : Nat) - ((0 + C - 1 - j) % C) = 0 := by omega
    rw [h0, if_pos rfl]
  | succ n ih =>
    obtain ⟨hw, hr, ht, hh, hc, hbl, hbj⟩ := ih
    have hhead_lt : (pushN C d v n).head < (pushN C d v n).buffer.length := by
      rw [hbl, hh]; exact Nat.mod_lt _ hC
    refine ⟨?_, ?_, ?_, ?_, ?_, ?_, ?_⟩
    · show (RingBuffer.push (pushN C d v n) (v (n + 1))).2.write_epoch = n + 1
      rw [RingBuffer.push_snd_write_epoch, hw]
    · show (RingBuffer.push (pushN C d v n) (v (n + 1))).2.read_epoch = 0
      rw [RingBuffer.push_snd_read_epoch, hr]
    · show (RingBuffer.push (pushN C d v n) (v (n + 1))).2.tail = 0
      rw [RingBuffer.push_snd_tail, ht]
    · show (RingBuffer.push (pushN C d v n) (v (n + 1))).2.head = (n + 1) % C
      rw [RingBuffer.push_snd_head, hh, hc, Nat.mod_add_mod]
    · show (RingBuffer.push (pushN C d v n) (v (n + 1))).2.capacity = C
      rw [RingBuffer.push_snd_capacity, hc]
    · show (RingBuffer.push (pushN C d v n) (v (n + 1))).2.buffer.length = C
      rw [RingBuffer.push_snd_buffer, List.length_set, hbl]
    · intro j hj
      show (RingBuffer.push (pushN C d v n) (v (n + 1))).2.buffer[j]? = _
      rw [RingBuffer.push_snd_buffer, hw, hh]
      by_cases hje : j = n % C
      · subst hje
        rw [List.getElem?_set_eq_of_lt _ (by rw [hbl]; exact Nat.mod_lt _ hC)]
        rw [slotE_head hC n]
        rw [if_neg (Nat.succ_ne_zero n)]
      · rw [List.getElem?_set_ne (fun h => hje h.symm)]
        rw [hbj j hj, slotE_other hC hj hje]

/-- Mid-drain step: with epochs `≤ m` consumed, `tail` sits on the slot
holding epoch `m + 1`, which `pop` returns. -/
theorem pop_mid {α : Type} (C n : Nat) (d : α) (v : Nat → α)
    (buf : List (Slot α)) (hC : 0 < C)
    (hbj : ∀ j : Nat, j < C →
      buf[j]? = some (if n - ((n + C - 1 - j) % C) = 0 then Slot.mk d 0
        else Slot.mk (v (n - ((n + C - 1 - j) % C))) (n - ((n + C - 1 - j) % C))))
    (m : Nat) (hm1 : n - ((n - 1) % C) ≤ m) (hm2 : m < n) :
    RingBuffer.pop (⟨buf, n % C, m % C, n, m, C⟩ : RingBuffer α) =
      (some (v (m + 1)), (⟨buf, n % C, (m + 1) % C, n, m + 1, C⟩ : RingBuffer α)) := by
  have hrlt : (n - 1) % C < C := Nat.mod_lt _ hC
  have hk : n - 1 - m < C := by omega
  have hdm := Nat.div_add_mod m C
  have hkey : (n + C - 1 - m % C) % C = n - 1 - m := by
    have h1 : n + C - 1 - m % C = ((n - 1 - m) + C * (m / C)) + C := by omega
    rw [h1, Nat.add_mod_right, Nat.add_mul_mod_self_left]
    exact Nat.mod_eq_of_lt hk
  have hslot : buf[m % C]? = some (Slot.mk (v (m + 1)) (m + 1)) := by
    rw [hbj (m % C) (Nat.mod_lt _ hC), hkey]
    have hmn : n - (n - 1 - m) = m + 1 := by omega
    rw [hmn, if_neg (Nat.succ_ne_zero m)]
  have hse : RingBuffer.slot_epoch
      (⟨buf, n % C, m % C, n, m, C⟩ : RingBuffer α) (m % C) = m + 1 := by
    unfold RingBuffer.slot_epoch
    dsimp only
    rw [hslot]
    rfl
  have hloop : RingBuffer.popLoop (C + 1)
      (⟨buf, n % C, m % C, n, m, C⟩ : RingBuffer α) =
      some (some (v (m + 1), m + 1),
        (⟨buf, n % C, (m + 1) % C, n, m + 1, C⟩ : RingBuffer α)) := by
    rw [RingBuffer.popLoop]
    dsimp only
    rw [hse]
    rw [if_neg (show ¬ n = 0 by omega)]
    rw [if_neg (show ¬ m + 1 ≤ m by omega)]
    rw [if_neg (show ¬ m + 1 < n - (C - 1) by omega)]
    rw [hslot]
    dsimp only
    rw [Nat.mod_add_mod]
  show RingBuffer.pop _ = _
  unfold RingBuffer.pop
  rw [show (⟨buf, n % C, m % C, n, m, C⟩ : RingBuffer α).capacity = C from rfl]
  rw [hloop]
  rfl

/-- End of the drain: with all epochs consumed (`read_epoch = n`),
`tail` has caught up with `head` over a consumed slot, and `pop`
returns nothing, leaving the state as is. -/
theorem pop_end {α : Type} (C n : Nat) (d : α) (v : Nat → α)
    (buf : List (Slot α)) (hC : 0 < C)
    (hbj : ∀ j : Nat, j < C →
      buf[j]? = some (if n - ((n + C - 1 - j) % C) = 0 then Slot.mk d 0
        else Slot.mk (v (n - ((n + C - 1 - j) % C))) (n - ((n + C - 1 - j) % C)))) :
    RingBuffer.pop (⟨buf, n % C, n % C, n, n, C⟩ : RingBuffer α) =
      (none, (⟨buf, n % C, n % C, n, n, C⟩ : RingBuffer α)) := by
  by_cases hn : n = 0
  · subst hn
    have hloop : RingBuffer.popLoop (C + 1)
        (⟨buf, 0 % C, 0 % C, 0, 0, C⟩ : RingBuffer α) =
        some (none, (⟨buf, 0 % C, 0 % C, 0, 0, C⟩ : RingBuffer α)) := by
      rw [RingBuffer.popLoop]
      dsimp only
      rw [if_pos rfl]
    show RingBuffer.pop _ = _
    unfold RingBuffer.pop
    rw [show (⟨buf, 0 % C, 0 % C, 0, 0, C⟩ : RingBuffer α).capacity = C from rfl]
    rw [hloop]
    rfl
  · have hdm := Nat.div_add_mod n C
    have hkey : (n + C - 1 - n % C) % C = C - 1 := by
      have hle := Nat.mod_le n C
      have h1 : n + C - 1 - n % C = C * (n / C) + (C - 1) := by omega
      rw [h1, Nat.mul_add_mod]
      exact Nat.mod_eq_of_lt (by omega)
    have hle : RingBuffer.slot_epoch
        (⟨buf, n % C, n % C, n, n, C⟩ : RingBuffer α) (n % C) ≤ n := by
      unfold RingBuffer.slot_epoch
      dsimp only
      rw [hbj (n % C) (Nat.mod_lt _ hC), hkey]
      by_cases hz : n - (C - 1) = 0
      · rw [if_pos hz]
        exact Nat.zero_le n
      · rw [if_neg hz]
        show n - (C - 1) ≤ n
        omega
    have hloop : RingBuffer.popLoop (C + 1)
        (⟨buf, n % C, n % C, n, n, C⟩ : RingBuffer α) =
        some (none, (⟨buf, n % C, n % C, n, n, C⟩ : RingBuffer α)) := by
      rw [RingBuffer.popLoop]
      dsimp only
      rw [if_neg hn]
      rw [if_pos hle, if_pos rfl]
    show RingBuffer.pop _ = _
    unfold RingBuffer.pop
    rw [show (⟨buf, n % C, n % C, n, n, C⟩ : RingBuffer α).capacity = C from rfl]
    rw [hloop]
    rfl

/-- The first pop after `n` pushes with nothing consumed returns the
record at slot 0, which carries the oldest surviving epoch
`n - ((n - 1) % C)`. -/
theorem pop_first {α : Type} (C n : Nat) (d : α) (v : Nat → α)
    (buf : List (Slot α)) (hC : 0 < C) (hn : 1 ≤ n)
    (hbj : ∀ j : Nat, j < C →
      buf[j]? = some (if n - ((n + C - 1 - j) % C) = 0 then Slot.mk d 0
        else Slot.mk (v (n - ((n + C - 1 - j) % C))) (n - ((n + C - 1 - j) % C)))) :
    RingBuffer.pop (⟨buf, n % C, 0, n, 0, C⟩ : RingBuffer α) =
      (some (v (n - ((n - 1) % C))),
        (⟨buf, n % C, (n - ((n - 1) % C)) % C, n,
          n - ((n - 1) % C), C⟩ : RingBuffer α)) := by
  have hrlt : (n - 1) % C < C := Nat.mod_lt _ hC
  have hrle : (n - 1) % C ≤ n - 1 := Nat.mod_le _ _
  have hkey : (n + C - 1 - 0) % C = (n - 1) % C := by
    have h1 : n + C - 1 - 0 = (n - 1) + C := by omega
    rw [h1, Nat.add_mod_right]
  have hslot : buf[(0 : Nat)]? =
      some (Slot.mk (v (n - ((n - 1) % C))) (n - ((n - 1) % C))) := by
    rw [hbj 0 hC, hkey]
    rw [if_neg (by omega)]
  have hse : RingBuffer.slot_epoch
      (⟨buf, n % C, 0, n, 0, C⟩ : RingBuffer α) 0 = n - ((n - 1) % C) := by
    unfold RingBuffer.slot_epoch
    dsimp only
    rw [hslot]
    rfl
  have hdm1 := Nat.div_add_mod (n - 1) C
  have htail : (0 + 1) % C = (n - ((n - 1) % C)) % C := by
    have h1 : n - ((n - 1) % C) = C * ((n - 1) / C) + 1 := by omega
    rw [h1, Nat.mul_add_mod]
  have hloop : RingBuffer.popLoop (C + 1)
      (⟨buf, n % C, 0, n, 0, C⟩ : RingBuffer α) =
      some (some (v (n - ((n - 1) % C)), n - ((n - 1) % C)),
        (⟨buf, n % C, (n - ((n - 1) % C)) % C, n,
          n - ((n - 1) % C), C⟩ : RingBuffer α)) := by
    rw [RingBuffer.popLoop]
    dsimp only
    rw [hse]
    rw [if_neg (show ¬ n = 0 by omega)]
    rw [if_neg (show ¬ n - ((n - 1) % C) ≤ 0 by omega)]
    rw [if_neg (show ¬ n - ((n - 1) % C) < n - (C - 1) by omega)]
    rw [hslot]
    dsimp only
    rw [htail]
  show RingBuffer.pop _ = _
  unfold RingBuffer.pop
  rw [show (⟨buf, n % C, 0, n, 0, C⟩ : RingBuffer α).capacity = C from rfl]
  rw [hloop]
  rfl

/-- Draining from the mid-drain state yields the remaining epochs
`m + 1, …, n` in order. -/
theorem drain_mid {α : Type} (C n : Nat) (d : α) (v : Nat → α)
    (buf : List (Slot α)) (hC : 0 < C)
    (hbj : ∀ j : Nat, j < C →
      buf[j]? = some (if n - ((n + C - 1 - j) % C) = 0 then Slot.mk d 0
        else Slot.mk (v (n - ((n + C - 1 - j) % C))) (n - ((n + C - 1 - j) % C)))) :
    ∀ (k fuel m : Nat), m + k = n → n - ((n - 1) % C) ≤ m → k + 1 ≤ fuel →
      drainList (⟨buf, n % C, m % C, n, m, C⟩ : RingBuffer α) fuel =
        (List.range' (m + 1) k).map v := by
  intro k
  induction k with
  | zero =>
    intro fuel m hmk hm hf
    have hmn : m = n := by omega
    subst hmn
    cases fuel with
    | zero => omega
    | succ f =>
      rw [drainList]
      rw [pop_end C m d v buf hC hbj]
      rfl
  | succ k ih =>
    intro fuel m hmk hm hf
    cases fuel with
    | zero => omega
    | succ f =>
      rw [drainList]
      rw [pop_mid C n d v buf hC hbj m hm (by omega)]
      dsimp only
      rw [ih f (m + 1) (by omega) (by omega) (by omega)]
      rw [List.range'_succ]
      rfl

/-- Draining the state left by `n ≥ 1` pushes yields exactly the
surviving suffix of epochs, `n - ((n-1) % C)` through `n`. -/
theorem drain_start {α : Type} (C n : Nat) (d : α) (v : Nat → α)
    (buf : List (Slot α)) (hC : 0 < C) (hn : 1 ≤ n)
    (hbj : ∀ j : Nat, j < C →
      buf[j]? = some (if n - ((n + C - 1 - j) % C) = 0 then Slot.mk d 0
        else Slot.mk (v (n - ((n + C - 1 - j) % C))) (n - ((n + C - 1 - j) % C))))
    (fuel : Nat) (hf : (n - (n - ((n - 1) % C))) + 2 ≤ fuel) :
    drainList (⟨buf, n % C, 0, n, 0, C⟩ : RingBuffer α) fuel =
      (List.range' (n - ((n - 1) % C)) (n + 1 - (n - ((n - 1) % C)))).map v := by
  have hrle : (n - 1) % C ≤ n - 1 := Nat.mod_le _ _
  cases fuel with
  | zero => omega
  | succ f =>
    rw [drainList]
    rw [pop_first C n d v buf hC hn hbj]
    dsimp only
    rw [drain_mid C n d v buf hC hbj (n - (n - ((n - 1) % C))) f
      (n - ((n - 1) % C)) (by omega) (le_refl _) (by omega)]
    have he : n + 1 - (n - ((n - 1) % C)) = (n - (n - ((n - 1) % C))) + 1 := by
      omega
    rw [he, List.range'_succ]
    rfl

/-- C2: pushing strictly more than `C` values (no intervening pop) onto
a fresh buffer of capacity `C` and then draining recovers at most `C`
records, namely the values of the contiguous epoch suffix
`n - ((n-1) % C), …, n` of the push sequence, with `latest_epoch = n`;
in particular for `C = 3`, pushing 1,2,3,4,5 drains to `[4, 5]` with
`latest_epoch() = 5`. -/
theorem c2_overflow_drop_oldest :
    (∀ (α : Type) (d : α) (v : Nat → α) (C n : Nat), 0 < C → C < n →
      drainList (pushN C d v n) (n + 1) =
        (List.range' (n - ((n - 1) % C)) ((n - 1) % C + 1)).map v ∧
      (n - 1) % C + 1 ≤ C ∧
      RingBuffer.latest_epoch (pushN C d v n) = n) ∧
    drainList (pushN 3 (0 : Nat) (fun i => i) 5) 6 = [4, 5] ∧
    RingBuffer.latest_epoch (pushN 3 (0 : Nat) (fun i => i) 5) = 5 := by
  constructor
  · intro α d v C n hC hCn
    obtain ⟨hw, hr, ht, hh, hc, hbl, hbj⟩ := pushN_spec C d v hC n
    have hrlt : (n - 1) % C < C := Nat.mod_lt _ hC
    have hrle : (n - 1) % C ≤ n - 1 := Nat.mod_le _ _
    have hstate : pushN C d v n =
        (⟨(pushN C d v n).buffer, n % C, 0, n, 0, C⟩ : RingBuffer α) := by
      conv_lhs => rw [show pushN C d v n =
        ⟨(pushN C d v n).buffer, (pushN C d v n).head, (pushN C d v n).tail,
          (pushN C d v n).write_epoch, (pushN C d v n).read_epoch,
          (pushN C d v n).capacity⟩ from rfl]
      rw [hw, hr, ht, hh, hc]
    refine ⟨?_, by omega, ?_⟩
    · rw [hstate]
      have he : n + 1 - (n - ((n - 1) % C)) = (n - 1) % C + 1 := by omega
      rw [← he]
      exact drain_start C n d v (pushN C d v n).buffer hC (by omega) hbj
        (n + 1) (by omega)
    · unfold RingBuffer.latest_epoch
      exact hw
  · exact ⟨by decide, by decide⟩

/-- Witness for C2 at a concrete input. -/
theorem c2_witness :
    drainList (pushN 1 (0 : Nat) (fun i => i) 2) 3 =
      (List.range' (2 - ((2 - 1) % 1)) ((2 - 1) % 1 + 1)).map (fun i => i) ∧
    (2 - 1) % 1 + 1 ≤ 1 ∧
    RingBuffer.latest_epoch (pushN 1 (0 : Nat) (fun i => i) 2) = 2 :=
  c2_overflow_drop_oldest.1 Nat 0 (fun i => i) 1 2 (by decide) (by decide)
